import Mathlib

/-!
Verification of `model.py` (SingingModel): receptive-field computation,
mixture-density sampling mask logic, learning-rate scheduling, and the
autoregressive inference loop, shallowly embedded in Lean.

Modelling conventions:
* Python ints are `Nat` (under the validity hypotheses of the claims all
  subtractions are exact) or `Int` where negative values matter.
* float64 arithmetic in the sampling / scheduling code is modelled by exact
  rational arithmetic (`ℚ`); the claims under study are about the exact
  comparison and accumulation structure of the code, not about rounding.
* Randomness is passed in explicitly: the uniform draw `u` and the
  standard-normal draws `z` are parameters, and a Gaussian sample from
  `N(mean, sigma)` is modelled as `mean + sigma * z`.
* The Keras generator network is abstracted as an arbitrary function
  `gen : List ℚ → List ℚ → ℚ` from (input window, label window) to the
  produced value; the inference-loop claims are about window bookkeeping,
  which is independent of the network.
-/

/-- Embedding of `SingingModel.get_receptive_field` (model.py lines 257-281),
with the hyperparameters passed directly instead of read from a parser object.
The inner `foldl` carries the loop pair `(receptive_field, add_scope)`:
`add_scope` is re-initialised to `kernel - 1` at each block and doubled at
each level, exactly as in the source. -/
def get_receptive_field (blocks levels kernel init_kernel : ℕ) : ℕ :=
  let rf := (List.range blocks).foldl
    (fun rf i =>
      let neural_levels := if i = blocks - 1 then levels - 1 else levels
      ((List.range neural_levels).foldl
        (fun p _ => (p.1 + p.2, p.2 * 2)) (rf, kernel - 1)).1)
    1
  rf + (init_kernel - 1)

/-- The receptive-field formula as the spec states it: `init_kernel - 1 + 1 +`
the sum over all dilated layers of `(kernel - 1)` times that layer's dilation
`2^j`, where the dilation resets at each block start and the final block has
one fewer level. Written from the spec's words, to be compared with
`get_receptive_field`. -/
def spec_receptive_field (blocks levels kernel init_kernel : ℕ) : ℕ :=
  init_kernel - 1 + 1 +
    ∑ i ∈ Finset.range blocks,
      ∑ j ∈ Finset.range (if i = blocks - 1 then levels - 1 else levels),
        (kernel - 1) * 2 ^ j

/-- Embedding of `get_receptive_field` over `Int` kernel sizes, faithful to
Python's unbounded signed ints: used to study degenerate hyperparameter sets
(e.g. `init_kernel = 0`) where the result can be non-positive. `blocks` and
`levels` stay `Nat` since they only feed `range` (Python's `range` of a
negative number is empty, matching truncated `Nat` subtraction in
`levels - 1`). -/
def get_receptive_fieldZ (blocks levels : ℕ) (kernel init_kernel : ℤ) : ℤ :=
  let rf := (List.range blocks).foldl
    (fun rf i =>
      let neural_levels := if i = blocks - 1 then levels - 1 else levels
      ((List.range neural_levels).foldl
        (fun p _ => (p.1 + p.2, p.2 * 2)) (rf, kernel - 1)).1)
    1
  rf + (init_kernel - 1)

/-- Closed form of the inner level loop: starting from `(r, a)`, after `n`
levels the pair is `(r + a * (2^n - 1), a * 2^n)`. -/
lemma level_foldl_closed (n : ℕ) : ∀ r a : ℕ,
    (List.range n).foldl (fun p _ => (p.1 + p.2, p.2 * 2)) (r, a)
      = (r + a * (2 ^ n - 1), a * 2 ^ n) := by
  induction n with
  | zero => intro r a; simp
  | succ n ih =>
    intro r a
    rw [List.range_succ, List.foldl_append, ih r a]
    simp only [List.foldl_cons, List.foldl_nil]
    have h1 : 1 ≤ 2 ^ n := Nat.one_le_two_pow
    obtain ⟨x, hx⟩ : ∃ x, 2 ^ n = x + 1 := ⟨2 ^ n - 1, by omega⟩
    have h2 : 2 ^ (n + 1) = 2 * x + 2 := by rw [pow_succ, hx]; ring
    rw [hx, h2]
    simp only [Prod.mk.injEq]
    refine ⟨?_, by ring⟩
    have e1 : x + 1 - 1 = x := by omega
    have e2 : 2 * x + 2 - 1 = 2 * x + 1 := by omega
    rw [e1, e2]
    ring

/-- Sum of the layer scopes of one block with `n` levels, as the spec writes
it, equals the closed form `a * (2^n - 1)`. -/
lemma spec_level_sum (a n : ℕ) :
    (∑ j ∈ Finset.range n, a * 2 ^ j) = a * (2 ^ n - 1) := by
  induction n with
  | zero => simp
  | succ n ih =>
    rw [Finset.sum_range_succ, ih]
    have h1 : 1 ≤ 2 ^ n := Nat.one_le_two_pow
    obtain ⟨x, hx⟩ : ∃ x, 2 ^ n = x + 1 := ⟨2 ^ n - 1, by omega⟩
    have h2 : 2 ^ (n + 1) = 2 * x + 2 := by rw [pow_succ, hx]; ring
    rw [hx, h2]
    have e1 : x + 1 - 1 = x := by omega
    have e2 : 2 * x + 2 - 1 = 2 * x + 1 := by omega
    rw [e1, e2]
    ring

example : get_receptive_field 2 2 2 1 = 5 := by decide
example : spec_receptive_field 2 2 2 1 = 5 := by decide

/-- Accumulating one block: the outer loop body applied to accumulator `a`
over `b` blocks, where block `i` runs `c i` levels, adds
`k1 * (2 ^ c i - 1)` per block. -/
lemma foldl_blocks (k1 : ℕ) (c : ℕ → ℕ) : ∀ b a : ℕ,
    (List.range b).foldl (fun acc i =>
      ((List.range (c i)).foldl (fun p _ => (p.1 + p.2, p.2 * 2)) (acc, k1)).1) a
      = a + ∑ i ∈ Finset.range b, k1 * (2 ^ c i - 1) := by
  intro b
  induction b with
  | zero => intro a; simp
  | succ b ih =>
    intro a
    rw [List.range_succ, List.foldl_append, ih a]
    simp only [List.foldl_cons, List.foldl_nil]
    rw [level_foldl_closed, Finset.sum_range_succ, add_assoc]

/-- A sum over `range b` whose final term (index `b - 1`) is `c1` and whose
other terms are all `c0` equals `(b - 1) * c0 + c1`. -/
lemma sum_ite_last (b c0 c1 : ℕ) (hb : 1 ≤ b) :
    (∑ i ∈ Finset.range b, if i = b - 1 then c1 else c0) = (b - 1) * c0 + c1 := by
  obtain ⟨m, rfl⟩ : ∃ m, b = m + 1 := ⟨b - 1, by omega⟩
  simp only [Nat.add_sub_cancel]
  rw [Finset.sum_range_succ]
  have hm : ∀ i ∈ Finset.range m, (if i = m then c1 else c0) = c0 := by
    intro i hi
    exact if_neg (Nat.ne_of_lt (Finset.mem_range.mp hi))
  rw [Finset.sum_congr rfl hm, Finset.sum_const, smul_eq_mul, Finset.card_range, if_pos rfl]

/-- Closed form of `get_receptive_field` for at least one block:
`1 + (blocks-1)·(kernel-1)·(2^levels - 1) + (kernel-1)·(2^(levels-1) - 1)
 + (init_kernel - 1)`. -/
lemma rf_closed (b l k ik : ℕ) (hb : 1 ≤ b) :
    get_receptive_field b l k ik
      = 1 + ((b - 1) * ((k - 1) * (2 ^ l - 1)) + (k - 1) * (2 ^ (l - 1) - 1))
          + (ik - 1) := by
  show ((List.range b).foldl (fun acc i =>
      ((List.range (if i = b - 1 then l - 1 else l)).foldl
        (fun p _ => (p.1 + p.2, p.2 * 2)) (acc, k - 1)).1) 1) + (ik - 1) = _
  rw [foldl_blocks (k - 1) (fun i => if i = b - 1 then l - 1 else l) b 1]
  have hterm : ∀ i ∈ Finset.range b,
      (k - 1) * (2 ^ (if i = b - 1 then l - 1 else l) - 1)
        = if i = b - 1 then (k - 1) * (2 ^ (l - 1) - 1)
          else (k - 1) * (2 ^ l - 1) := by
    intro i hi
    by_cases h : i = b - 1
    · rw [if_pos h, if_pos h]
    · rw [if_neg h, if_neg h]
  rw [Finset.sum_congr rfl hterm, sum_ite_last _ _ _ hb]

/-- C1: for every valid hyperparameter set (all parameters at least 1),
`get_receptive_field` returns exactly `init_kernel - 1 + 1 +` the sum over all
dilated layers of `(kernel - 1)` times that layer's dilation, where the
dilation doubles per level within a block, resets to 1 at each block start,
and the final block has one fewer level; in particular for
`levels = 2, blocks = 2, kernel = 2, init_kernel = 1` it returns 5. -/
theorem receptive_field_matches_spec (blocks levels kernel init_kernel : ℕ)
    (hb : 1 ≤ blocks) (hl : 1 ≤ levels) (hk : 1 ≤ kernel) (hik : 1 ≤ init_kernel) :
    get_receptive_field blocks levels kernel init_kernel
      = spec_receptive_field blocks levels kernel init_kernel ∧
    get_receptive_field 2 2 2 1 = 5 := by
  refine ⟨?_, by decide⟩
  rw [rf_closed _ _ _ _ hb]
  unfold spec_receptive_field
  have hterm : ∀ i ∈ Finset.range blocks,
      (∑ j ∈ Finset.range (if i = blocks - 1 then levels - 1 else levels),
          (kernel - 1) * 2 ^ j)
        = if i = blocks - 1 then (kernel - 1) * (2 ^ (levels - 1) - 1)
          else (kernel - 1) * (2 ^ levels - 1) := by
    intro i hi
    by_cases h : i = blocks - 1
    · rw [if_pos h, if_pos h, spec_level_sum]
    · rw [if_neg h, if_neg h, spec_level_sum]
  rw [Finset.sum_congr rfl hterm, sum_ite_last _ _ _ hb]
  omega

/-- Witness for C1 at `blocks = 2, levels = 2, kernel = 2, init_kernel = 1`. -/
theorem receptive_field_matches_spec_witness :
    (1 ≤ 2 ∧ 1 ≤ 2 ∧ 1 ≤ 2 ∧ 1 ≤ 1) ∧
    (get_receptive_field 2 2 2 1 = spec_receptive_field 2 2 2 1 ∧
      get_receptive_field 2 2 2 1 = 5) :=
  ⟨by norm_num,
    receptive_field_matches_spec 2 2 2 1 (by norm_num) (by norm_num)
      (by norm_num) (by norm_num)⟩

/-- C8: `get_receptive_field` is a deterministic pure function of its
hyperparameters, and is monotonically non-decreasing in kernel size, level
count and block count on valid hyperparameter sets. -/
theorem receptive_field_deterministic_mono (b l k ik b2 l2 k2 : ℕ)
    (hb : 1 ≤ b) (hl : 1 ≤ l) (hk : 1 ≤ k) (hik : 1 ≤ ik)
    (hbb : b ≤ b2) (hll : l ≤ l2) (hkk : k ≤ k2) :
    (∀ b3 l3 k3 ik3, b = b3 → l = l3 → k = k3 → ik = ik3 →
        get_receptive_field b l k ik = get_receptive_field b3 l3 k3 ik3) ∧
    get_receptive_field b l k ik ≤ get_receptive_field b2 l2 k2 ik := by
  constructor
  · intro b3 l3 k3 ik3 h1 h2 h3 h4
    rw [h1, h2, h3, h4]
  · rw [rf_closed _ _ _ _ hb, rf_closed _ _ _ _ (le_trans hb hbb)]
    have m1 : b - 1 ≤ b2 - 1 := Nat.sub_le_sub_right hbb 1
    have m2 : k - 1 ≤ k2 - 1 := Nat.sub_le_sub_right hkk 1
    have m3 : 2 ^ l - 1 ≤ 2 ^ l2 - 1 :=
      Nat.sub_le_sub_right (Nat.pow_le_pow_right (by norm_num) hll) 1
    have m4 : 2 ^ (l - 1) - 1 ≤ 2 ^ (l2 - 1) - 1 :=
      Nat.sub_le_sub_right
        (Nat.pow_le_pow_right (by norm_num) (Nat.sub_le_sub_right hll 1)) 1
    exact Nat.add_le_add
      (Nat.add_le_add le_rfl
        (Nat.add_le_add (Nat.mul_le_mul m1 (Nat.mul_le_mul m2 m3))
          (Nat.mul_le_mul m2 m4))) le_rfl

/-- Witness for C8: growing `(blocks, levels, kernel)` from `(1, 1, 2)`
to `(2, 3, 4)` with `init_kernel = 1` does not decrease the receptive field. -/
theorem receptive_field_deterministic_mono_witness :
    (1 ≤ 1 ∧ 1 ≤ 1 ∧ 1 ≤ 2 ∧ 1 ≤ 1 ∧ 1 ≤ 2 ∧ 1 ≤ 3 ∧ 2 ≤ 4) ∧
    ((∀ b3 l3 k3 ik3, 1 = b3 → 1 = l3 → 2 = k3 → 1 = ik3 →
        get_receptive_field 1 1 2 1 = get_receptive_field b3 l3 k3 ik3) ∧
      get_receptive_field 1 1 2 1 ≤ get_receptive_field 2 3 4 1) :=
  ⟨by norm_num,
    receptive_field_deterministic_mono 1 1 2 1 2 3 4 (by norm_num) (by norm_num)
      (by norm_num) (by norm_num) (by norm_num) (by norm_num) (by norm_num)⟩

/-- C6 counterexample: at the concrete malformed hyperparameter set
`blocks = 1, levels = 1, kernel = 5, init_kernel = 0` the receptive-field
computation completes normally and returns the non-positive value `0`.
Neither `get_receptive_field` nor `build_model` contains any validation or
failure path conditioned on the hyperparameters (the embedding is a total
function), so model construction does not fail fatally at build time; the
claim fails at this input. -/
theorem receptive_field_no_build_validation_cex :
    get_receptive_fieldZ 1 1 5 0 = 0 ∧ get_receptive_fieldZ 1 1 5 0 ≤ 0 := by
  refine ⟨by decide, by decide⟩

/-- C6 amended: for degenerate hyperparameter sets (here `blocks = 1`,
`levels = 1`, any kernel, `init_kernel ≤ 0`) the receptive-field computation
returns its non-positive value as an ordinary result instead of failing at
model-build time. -/
theorem receptive_field_degenerate_returns (k ik : ℤ) (hik : ik ≤ 0) :
    get_receptive_fieldZ 1 1 k ik = ik ∧ get_receptive_fieldZ 1 1 k ik ≤ 0 := by
  have h : get_receptive_fieldZ 1 1 k ik = 1 + (ik - 1) := rfl
  constructor
  · rw [h]; ring
  · rw [h]; omega

/-- Witness for the amended C6 at `kernel = 7, init_kernel = 0`. -/
theorem receptive_field_degenerate_returns_witness :
    (0 : ℤ) ≤ 0 ∧
    (get_receptive_fieldZ 1 1 7 0 = 0 ∧ get_receptive_fieldZ 1 1 7 0 ≤ 0) :=
  ⟨le_refl 0, receptive_field_degenerate_returns 7 0 (le_refl 0)⟩

/-- Cumulative mixture weight before component `k`: embedding of the
`mask_set` accumulator in `sample_output` (model.py lines 77-79), which
starts from zeros and adds `weights[i]` for each `i < k`. -/
def mask_set (w : ℕ → ℚ) (k : ℕ) : ℚ :=
  (List.range k).foldl (fun acc i => acc + w i) 0

/-- Component-`k` selection test of `sample_output` (model.py lines 80-82):
`mask_a` is `random < weights[k] + mask_set` and `mask_b` is
`random >= mask_set`; the mask is their conjunction. -/
def selected (w : ℕ → ℚ) (u : ℚ) (k : ℕ) : Prop :=
  u < w k + mask_set w k ∧ mask_set w k ≤ u

instance (w : ℕ → ℚ) (u : ℚ) (k : ℕ) : Decidable (selected w u k) :=
  inferInstanceAs (Decidable (u < w k + mask_set w k ∧ mask_set w k ≤ u))

/-- The weighted expectation `out = Σ means[k] * weights[k]` computed at
model.py lines 68-70 (and then never used by `sample_output`). -/
def weighted_expectation (means weights : ℕ → ℚ) : ℚ :=
  (List.range 4).foldl (fun out k => out + means k * weights k) 0

/-- Value-level embedding of `sample_output` (model.py lines 72-86): the
returned `spectral_value` starts as zeros and, for each of the 4 components,
adds `mask * distribution`, where `mask` is the selection test cast to `0/1`
and `distribution` is the Gaussian draw from `N(means[k], sigmas[k])`,
modelled as `means k + sigmas k * z k` with `z k` the standard-normal draw.
The uniform draw `u` and the draws `z` are explicit parameters. -/
def sample_output (means sigmas weights : ℕ → ℚ) (u : ℚ) (z : ℕ → ℚ) : ℚ :=
  (List.range 4).foldl
    (fun sv k =>
      sv + (if selected weights u k then (1 : ℚ) else 0) * (means k + sigmas k * z k))
    0

lemma mask_set_zero (w : ℕ → ℚ) : mask_set w 0 = 0 := rfl

lemma mask_set_one (w : ℕ → ℚ) : mask_set w 1 = 0 + w 0 := rfl

lemma mask_set_two (w : ℕ → ℚ) : mask_set w 2 = 0 + w 0 + w 1 := rfl

lemma mask_set_three (w : ℕ → ℚ) : mask_set w 3 = 0 + w 0 + w 1 + w 2 := rfl

lemma mask_set_four (w : ℕ → ℚ) : mask_set w 4 = 0 + w 0 + w 1 + w 2 + w 3 := rfl

lemma mask_set_succ (w : ℕ → ℚ) (k : ℕ) :
    mask_set w (k + 1) = mask_set w k + w k := by
  unfold mask_set
  rw [List.range_succ, List.foldl_append]
  simp

/-- With nonnegative weights the cumulative sums are monotone. -/
lemma mask_set_mono (w : ℕ → ℚ) {j k : ℕ} (hjk : j ≤ k)
    (hw : ∀ i, i < k → 0 ≤ w i) : mask_set w j ≤ mask_set w k := by
  induction k with
  | zero =>
    have hj : j = 0 := by omega
    rw [hj]
  | succ k ih =>
    by_cases h : j = k + 1
    · rw [h]
    · have hj : j ≤ k := by omega
      have h1 := ih hj (fun i hi => hw i (by omega))
      have h0 : 0 ≤ w k := hw k (by omega)
      rw [mask_set_succ]
      linarith

/-- If `0 ≤ u` lies below the cumulative sum of the first `n` weights, some
component among the first `n` passes the selection test. -/
lemma selected_exists (w : ℕ → ℚ) (u : ℚ) : ∀ n, 0 ≤ u → u < mask_set w n →
    ∃ k, k < n ∧ selected w u k := by
  intro n
  induction n with
  | zero =>
    intro h0 h1
    rw [mask_set_zero] at h1
    exact absurd h1 (by linarith)
  | succ n ih =>
    intro h0 h1
    rcases le_or_lt (mask_set w n) u with hle | hlt
    · refine ⟨n, Nat.lt_succ_self n, ?_, hle⟩
      rw [mask_set_succ] at h1
      linarith
    · obtain ⟨k, hk, hsel⟩ := ih h0 hlt
      exact ⟨k, Nat.lt_succ_of_lt hk, hsel⟩

/-- With nonnegative weights, two distinct components cannot both pass the
selection test: the intervals are disjoint. -/
lemma selected_disjoint (w : ℕ → ℚ) (u : ℚ) {j k n : ℕ} (hjk : j < k)
    (hk : k < n) (hw : ∀ i, i < n → 0 ≤ w i)
    (hsj : selected w u j) (hsk : selected w u k) : False := by
  have h1 : u < mask_set w (j + 1) := by
    rw [mask_set_succ]
    linarith [hsj.1]
  have h2 : mask_set w (j + 1) ≤ mask_set w k :=
    mask_set_mono w (by omega) (fun i hi => hw i (by omega))
  linarith [hsk.2]

/-- C2: for every vector of 4 mixture weights that are nonnegative and sum
to 1, and every uniform draw `u` in `[0, 1)` (including draws exactly at a
cumulative boundary), the selection test of `sample_output` (strictly below
the cumulative sum through component `k` AND at least the cumulative sum
before it) selects exactly one component: no double-counting and no gap. -/
theorem mixture_selection_partition (w : ℕ → ℚ) (u : ℚ)
    (hw : ∀ i, i < 4 → 0 ≤ w i) (hsum : mask_set w 4 = 1)
    (hu0 : 0 ≤ u) (hu1 : u < 1) :
    ∃ k, k < 4 ∧ selected w u k ∧ ∀ j, j < 4 → selected w u j → j = k := by
  obtain ⟨k, hk, hsel⟩ := selected_exists w u 4 hu0 (by rw [hsum]; exact hu1)
  refine ⟨k, hk, hsel, ?_⟩
  intro j hj hsj
  rcases lt_trichotomy j k with h | h | h
  · exact (selected_disjoint w u h hk hw hsj hsel).elim
  · exact h
  · exact (selected_disjoint w u h hj hw hsel hsj).elim

/-- Witness for C2 with weights `[1/4, 1/4, 1/4, 1/4]` and the boundary draw
`u = 1/4`. -/
theorem mixture_selection_partition_witness :
    ((∀ i, i < 4 → (0 : ℚ) ≤ (fun _ : ℕ => (1 / 4 : ℚ)) i) ∧
      mask_set (fun _ : ℕ => (1 / 4 : ℚ)) 4 = 1 ∧
      (0 : ℚ) ≤ 1 / 4 ∧ (1 / 4 : ℚ) < 1) ∧
    (∃ k, k < 4 ∧ selected (fun _ : ℕ => (1 / 4 : ℚ)) (1 / 4) k ∧
      ∀ j, j < 4 → selected (fun _ : ℕ => (1 / 4 : ℚ)) (1 / 4) j → j = k) :=
  ⟨⟨fun i _ => by norm_num, by rw [mask_set_four]; norm_num, by norm_num, by norm_num⟩,
    mixture_selection_partition (fun _ => (1 / 4 : ℚ)) (1 / 4)
      (fun i _ => by norm_num) (by rw [mask_set_four]; norm_num)
      (by norm_num) (by norm_num)⟩

example : selected (fun _ : ℕ => (1 / 4 : ℚ)) 0 0 :=
  ⟨by norm_num [mask_set_zero], by norm_num [mask_set_zero]⟩
example : selected (fun _ : ℕ => (1 / 4 : ℚ)) (1 / 4) 1 :=
  ⟨by norm_num [mask_set_one], by norm_num [mask_set_one]⟩
example : selected (fun _ : ℕ => (1 / 4 : ℚ)) (9999 / 10000) 3 :=
  ⟨by norm_num [mask_set_three], by norm_num [mask_set_three]⟩

/-- C10: `sample_output` is total over its selection loop: whenever the
uniform draw `u` is at or above the cumulative sum of all four mixture
weights (possible when the weights sum to less than 1), no component mask is
set and the returned value is exactly the `zeros_like` initialisation, 0 —
not an error and not a sample from any component. -/
theorem sample_output_gap_zero (means sigmas w : ℕ → ℚ) (u : ℚ) (z : ℕ → ℚ)
    (hw : ∀ i, i < 4 → 0 ≤ w i) (hu : mask_set w 4 ≤ u) :
    (∀ k, k < 4 → ¬ selected w u k) ∧ sample_output means sigmas w u z = 0 := by
  have hnot : ∀ k, k < 4 → ¬ selected w u k := by
    intro k hk hsel
    have h1 : u < mask_set w (k + 1) := by
      rw [mask_set_succ]
      linarith [hsel.1]
    have h2 : mask_set w (k + 1) ≤ mask_set w 4 := mask_set_mono w (by omega) hw
    linarith
  refine ⟨hnot, ?_⟩
  show (0 : ℚ)
      + (if selected w u 0 then (1 : ℚ) else 0) * (means 0 + sigmas 0 * z 0)
      + (if selected w u 1 then (1 : ℚ) else 0) * (means 1 + sigmas 1 * z 1)
      + (if selected w u 2 then (1 : ℚ) else 0) * (means 2 + sigmas 2 * z 2)
      + (if selected w u 3 then (1 : ℚ) else 0) * (means 3 + sigmas 3 * z 3) = 0
  rw [if_neg (hnot 0 (by norm_num)), if_neg (hnot 1 (by norm_num)),
    if_neg (hnot 2 (by norm_num)), if_neg (hnot 3 (by norm_num))]
  ring

/-- Witness for C10 with weights summing to `4/5` and the draw `u = 9/10`
above the total: all masks are off and the returned value is 0. -/
theorem sample_output_gap_zero_witness :
    ((∀ i, i < 4 → (0 : ℚ) ≤ (fun _ : ℕ => (1 / 5 : ℚ)) i) ∧
      mask_set (fun _ : ℕ => (1 / 5 : ℚ)) 4 ≤ 9 / 10) ∧
    ((∀ k, k < 4 → ¬ selected (fun _ : ℕ => (1 / 5 : ℚ)) (9 / 10) k) ∧
      sample_output (fun _ : ℕ => (3 : ℚ)) (fun _ : ℕ => (1 : ℚ))
        (fun _ : ℕ => (1 / 5 : ℚ)) (9 / 10) (fun _ : ℕ => (2 : ℚ)) = 0) :=
  ⟨⟨fun i _ => by norm_num, by rw [mask_set_four]; norm_num⟩,
    sample_output_gap_zero (fun _ => (3 : ℚ)) (fun _ => (1 : ℚ))
      (fun _ => (1 / 5 : ℚ)) (9 / 10) (fun _ => (2 : ℚ))
      (fun i _ => by norm_num) (by rw [mask_set_four]; norm_num)⟩

/-- C4 counterexample: at the concrete input with weights `1/4` each,
uniform draw `u = 0` (which selects component 0), means `(0, 1, 2, 3)` and
sigmas 0, `sample_output` returns `0`, while the weighted expectation
`Σ weight_k * mean_k` is `3/2`. The expectation is computed into the local
`out` at model.py lines 68-70 and then discarded: neither `sample_output`
nor the generator built in `get_generator` (which wraps `sample_output`
unconditionally in a `Lambda` layer) exposes any sampling-disabled mode
whose result is that expectation, so the claim fails at this input. -/
theorem sample_output_no_expectation_mode_cex :
    sample_output (fun k => (k : ℚ)) (fun _ => 0) (fun _ => (1 / 4 : ℚ)) 0
        (fun _ => 0)
      ≠ weighted_expectation (fun k => (k : ℚ)) (fun _ => (1 / 4 : ℚ)) := by
  have hs : selected (fun _ : ℕ => (1 / 4 : ℚ)) 0 0 :=
    ⟨by norm_num [mask_set_zero], by norm_num [mask_set_zero]⟩
  have hn1 : ¬ selected (fun _ : ℕ => (1 / 4 : ℚ)) 0 1 := by
    intro h
    have := h.2
    rw [mask_set_one] at this
    norm_num at this
  have hn2 : ¬ selected (fun _ : ℕ => (1 / 4 : ℚ)) 0 2 := by
    intro h
    have := h.2
    rw [mask_set_two] at this
    norm_num at this
  have hn3 : ¬ selected (fun _ : ℕ => (1 / 4 : ℚ)) 0 3 := by
    intro h
    have := h.2
    rw [mask_set_three] at this
    norm_num at this
  show (0 : ℚ)
      + (if selected (fun _ : ℕ => (1 / 4 : ℚ)) 0 0 then (1 : ℚ) else 0) * (0 + 0 * 0)
      + (if selected (fun _ : ℕ => (1 / 4 : ℚ)) 0 1 then (1 : ℚ) else 0) * (1 + 0 * 0)
      + (if selected (fun _ : ℕ => (1 / 4 : ℚ)) 0 2 then (1 : ℚ) else 0) * (2 + 0 * 0)
      + (if selected (fun _ : ℕ => (1 / 4 : ℚ)) 0 3 then (1 : ℚ) else 0) * (3 + 0 * 0)
      ≠ 0 + 0 * (1 / 4) + 1 * (1 / 4) + 2 * (1 / 4) + 3 * (1 / 4)
  rw [if_pos hs, if_neg hn1, if_neg hn2, if_neg hn3]
  norm_num

/-- C4 amended: `sample_output` has a single mode. It always returns the
selected component's Gaussian sample `means k + sigmas k * z k` (the
weighted expectation `Σ weight_k * mean_k` is computed into a local and
discarded); no deterministic / sampling-disabled mode is exposed by
`sample_output` or by the generator built from it. -/
theorem sample_output_returns_selected_sample (means sigmas w : ℕ → ℚ)
    (u : ℚ) (z : ℕ → ℚ) (hw : ∀ i, i < 4 → 0 ≤ w i)
    (k : ℕ) (hk : k < 4) (hsel : selected w u k) :
    sample_output means sigmas w u z = means k + sigmas k * z k := by
  have hothers : ∀ j, j < 4 → j ≠ k → ¬ selected w u j := by
    intro j hj hne hsj
    rcases lt_trichotomy j k with h | h | h
    · exact selected_disjoint w u h hk hw hsj hsel
    · exact hne h
    · exact selected_disjoint w u h hj hw hsel hsj
  show (0 : ℚ)
      + (if selected w u 0 then (1 : ℚ) else 0) * (means 0 + sigmas 0 * z 0)
      + (if selected w u 1 then (1 : ℚ) else 0) * (means 1 + sigmas 1 * z 1)
      + (if selected w u 2 then (1 : ℚ) else 0) * (means 2 + sigmas 2 * z 2)
      + (if selected w u 3 then (1 : ℚ) else 0) * (means 3 + sigmas 3 * z 3)
      = means k + sigmas k * z k
  interval_cases k
  · rw [if_pos hsel, if_neg (hothers 1 (by norm_num) (by norm_num)),
      if_neg (hothers 2 (by norm_num) (by norm_num)),
      if_neg (hothers 3 (by norm_num) (by norm_num))]
    ring
  · rw [if_pos hsel, if_neg (hothers 0 (by norm_num) (by norm_num)),
      if_neg (hothers 2 (by norm_num) (by norm_num)),
      if_neg (hothers 3 (by norm_num) (by norm_num))]
    ring
  · rw [if_pos hsel, if_neg (hothers 0 (by norm_num) (by norm_num)),
      if_neg (hothers 1 (by norm_num) (by norm_num)),
      if_neg (hothers 3 (by norm_num) (by norm_num))]
    ring
  · rw [if_pos hsel, if_neg (hothers 0 (by norm_num) (by norm_num)),
      if_neg (hothers 1 (by norm_num) (by norm_num)),
      if_neg (hothers 2 (by norm_num) (by norm_num))]
    ring

/-- Witness for the amended C4: weights `1/4` each, `u = 1/4` selects
component 1, and `sample_output` returns `means 1 = 1`, not the weighted
expectation `3/2`. -/
theorem sample_output_returns_selected_sample_witness :
    ((∀ i, i < 4 → (0 : ℚ) ≤ (fun _ : ℕ => (1 / 4 : ℚ)) i) ∧ 1 < 4 ∧
      selected (fun _ : ℕ => (1 / 4 : ℚ)) (1 / 4) 1) ∧
    sample_output (fun k => (k : ℚ)) (fun _ => 1) (fun _ => (1 / 4 : ℚ))
      (1 / 4) (fun _ => 0) = 1 :=
  ⟨⟨fun i _ => by norm_num, by norm_num,
      ⟨by norm_num [mask_set_one], by norm_num [mask_set_one]⟩⟩,
    by
      rw [sample_output_returns_selected_sample (fun k => (k : ℚ)) (fun _ => 1)
        (fun _ => (1 / 4 : ℚ)) (1 / 4) (fun _ => 0) (fun i _ => by norm_num) 1
        (by norm_num) ⟨by norm_num [mask_set_one], by norm_num [mask_set_one]⟩]
      norm_num⟩

/-- Embedding of `SingingModel.lr_scheduler` (model.py lines 179-181):
`lr / (1 + 0.00001 * epoch)`, with the float literal `0.00001` modelled as
the exact rational `1/100000`. -/
def lr_scheduler (epoch : ℕ) (lr : ℚ) : ℚ :=
  lr / (1 + (1 / 100000) * epoch)

/-- The learning rate applied at each epoch by the Keras
`LearningRateScheduler(self.lr_scheduler)` callback installed in
`train_model` (model.py line 222): at the start of epoch `e` the callback
reads the optimizer's current rate — the rate applied at epoch `e - 1` — and
sets the result of `lr_scheduler e` on it (documented Keras callback
behaviour; the callback is the only writer of the optimizer's rate here). -/
def applied_lr (lr0 : ℚ) : ℕ → ℚ
  | 0 => lr_scheduler 0 lr0
  | e + 1 => lr_scheduler (e + 1) (applied_lr lr0 e)

/-- C3 counterexample: with initial rate 1 and `c = 1/100000`, at epoch 2 the
code applies `1 / ((1 + c) * (1 + 2c))` — dividing the PREVIOUS epoch's
already-decayed rate by `(1 + c * 2)` — which differs from the claimed
`lr(0) / (1 + c * 2)`. -/
theorem lr_scheduler_compounds_cex :
    applied_lr 1 2 ≠ 1 / (1 + (1 / 100000) * 2) := by
  show lr_scheduler 2 (lr_scheduler 1 (lr_scheduler 0 1)) ≠ _
  unfold lr_scheduler
  norm_num

/-- C3 amended: the rate applied at epoch `e` is the previous epoch's
already-decayed rate divided by `(1 + c * e)`; in closed form
`lr(e) = lr(0) / Π i ≤ e, (1 + c * i)` (the factor at `i = 0` being 1),
not `lr(0) / (1 + c * e)`. -/
theorem lr_scheduler_product_decay (lr0 : ℚ) (e : ℕ) :
    applied_lr lr0 e
      = lr0 / ∏ i ∈ Finset.range (e + 1), (1 + (1 / 100000) * (i : ℚ)) := by
  induction e with
  | zero =>
    show lr_scheduler 0 lr0 = _
    unfold lr_scheduler
    norm_num
  | succ e ih =>
    show lr_scheduler (e + 1) (applied_lr lr0 e) = _
    rw [ih]
    unfold lr_scheduler
    rw [div_div,
      Finset.prod_range_succ (fun i : ℕ => 1 + (1 / 100000) * (i : ℚ)) (e + 1)]

/-- Per-step state of the inference loop of `SingingModel.inference`
(model.py lines 317-360), specialised to one channel and with
`spectral_data = None` (the claims under study concern the window
bookkeeping, which is per-row): `model_input` is the sliding input window
(time-major rows), `output` is the prefix of the output array written so
far, and `trace` records, per step, the pair (input window, label window)
fed to the generator. -/
structure InfState where
  model_input : List ℚ
  output : List ℚ
  trace : List (List ℚ × List ℚ)

/-- The label slice `label_data[start:end]` taken at step `i` (model.py
lines 323-330): `start = 0` while `i < receptive_field`, otherwise
`i + 1 - receptive_field`; `end = i + 1`. -/
def label_window (label_data : List ℚ) (R i : ℕ) : List ℚ :=
  (label_data.take (i + 1)).drop (if i < R then 0 else i + 1 - R)

/-- One iteration of the generation loop body (model.py lines 321-350,
with `spectral_data = None`): call the generator on the current
`model_input` and label window, append the produced value to the output,
then rebuild `model_input` for the next step — `output[:i+1]` padded with
one leading zero row while `i < receptive_field - 1`, otherwise the
trailing slice `output[i+1-receptive_field : i+1]`. -/
def inference_step (gen : List ℚ → List ℚ → ℚ) (label_data : List ℚ)
    (R i : ℕ) (st : InfState) : InfState :=
  let labels := label_window label_data R i
  let generated := gen st.model_input labels
  let output := st.output ++ [generated]
  let model_input :=
    if i < R - 1 then 0 :: output.take (i + 1)
    else (output.take (i + 1)).drop (i + 1 - R)
  ⟨model_input, output, st.trace ++ [(st.model_input, labels)]⟩

/-- The state before the first step: `model_input = np.zeros((1, 1, C))`
(one all-zero frame), no output rows written, empty trace. -/
def init_state : InfState := ⟨[0], [], []⟩

/-- The loop state after `n` steps. -/
def inference_loop (gen : List ℚ → List ℚ → ℚ) (label_data : List ℚ)
    (R : ℕ) : ℕ → InfState
  | 0 => init_state
  | n + 1 => inference_step gen label_data R n (inference_loop gen label_data R n)

/-- The output sequence returned by `inference` on an uncancelled run:
the loop runs once per row of `label_data` and returns `output`. -/
def inference (gen : List ℚ → List ℚ → ℚ) (label_data : List ℚ) (R : ℕ) :
    List ℚ :=
  (inference_loop gen label_data R label_data.length).output

lemma step_output (gen : List ℚ → List ℚ → ℚ) (L : List ℚ) (R i : ℕ)
    (st : InfState) :
    (inference_step gen L R i st).output
      = st.output ++ [gen st.model_input (label_window L R i)] := rfl

lemma step_trace (gen : List ℚ → List ℚ → ℚ) (L : List ℚ) (R i : ℕ)
    (st : InfState) :
    (inference_step gen L R i st).trace
      = st.trace ++ [(st.model_input, label_window L R i)] := rfl

lemma step_model_input (gen : List ℚ → List ℚ → ℚ) (L : List ℚ) (R i : ℕ)
    (st : InfState) :
    (inference_step gen L R i st).model_input
      = if i < R - 1
          then 0 :: ((inference_step gen L R i st).output.take (i + 1))
          else ((inference_step gen L R i st).output.take (i + 1)).drop (i + 1 - R) := rfl

lemma output_length (gen : List ℚ → List ℚ → ℚ) (L : List ℚ) (R : ℕ) :
    ∀ n, (inference_loop gen L R n).output.length = n := by
  intro n
  induction n with
  | zero => rfl
  | succ n ih =>
    show (inference_step gen L R n (inference_loop gen L R n)).output.length = n + 1
    rw [step_output, List.length_append, ih]
    rfl

lemma trace_length (gen : List ℚ → List ℚ → ℚ) (L : List ℚ) (R : ℕ) :
    ∀ n, (inference_loop gen L R n).trace.length = n := by
  intro n
  induction n with
  | zero => rfl
  | succ n ih =>
    show (inference_step gen L R n (inference_loop gen L R n)).trace.length = n + 1
    rw [step_trace, List.length_append, ih]
    rfl

lemma output_take (gen : List ℚ → List ℚ → ℚ) (L : List ℚ) (R : ℕ) :
    ∀ m n, n ≤ m →
      (inference_loop gen L R m).output.take n = (inference_loop gen L R n).output := by
  intro m
  induction m with
  | zero =>
    intro n h
    have : n = 0 := by omega
    rw [this]
    rfl
  | succ m ih =>
    intro n h
    rcases Nat.eq_or_lt_of_le h with heq | hlt
    · rw [heq]
      exact List.take_of_length_le (le_of_eq (output_length gen L R (m + 1)))
    · have hn : n ≤ m := by omega
      show ((inference_step gen L R m (inference_loop gen L R m)).output).take n = _
      rw [step_output, List.take_append_of_le_length (by rw [output_length]; omega)]
      exact ih n hn

lemma trace_take (gen : List ℚ → List ℚ → ℚ) (L : List ℚ) (R : ℕ) :
    ∀ m n, n ≤ m →
      (inference_loop gen L R m).trace.take n = (inference_loop gen L R n).trace := by
  intro m
  induction m with
  | zero =>
    intro n h
    have : n = 0 := by omega
    rw [this]
    rfl
  | succ m ih =>
    intro n h
    rcases Nat.eq_or_lt_of_le h with heq | hlt
    · rw [heq]
      exact List.take_of_length_le (le_of_eq (trace_length gen L R (m + 1)))
    · have hn : n ≤ m := by omega
      show ((inference_step gen L R m (inference_loop gen L R m)).trace).take n = _
      rw [step_trace, List.take_append_of_le_length (by rw [trace_length]; omega)]
      exact ih n hn

/-- The input window held after `n` steps (and fed to the generator at step
`n`): a single leading zero row followed by all generated outputs while
`n < R`, and the trailing `R` generated outputs afterwards. -/
lemma model_input_eq (gen : List ℚ → List ℚ → ℚ) (L : List ℚ) (R : ℕ)
    (hR : 1 ≤ R) : ∀ n, (inference_loop gen L R n).model_input
      = if n < R then 0 :: (inference_loop gen L R n).output
        else (inference_loop gen L R n).output.drop (n - R) := by
  intro n
  cases n with
  | zero =>
    rw [if_pos (by omega : 0 < R)]
    rfl
  | succ n =>
    show (inference_step gen L R n (inference_loop gen L R n)).model_input = _
    rw [step_model_input]
    have htake : (inference_step gen L R n (inference_loop gen L R n)).output.take (n + 1)
        = (inference_step gen L R n (inference_loop gen L R n)).output :=
      List.take_of_length_le (le_of_eq (output_length gen L R (n + 1)))
    rw [htake]
    have hc : n < R - 1 ↔ n + 1 < R := by omega
    exact if_congr hc rfl rfl

/-- The trace entry at index `t` is the pair (input window, label window)
fed to the generator at step `t`. -/
lemma trace_get (gen : List ℚ → List ℚ → ℚ) (L : List ℚ) (R : ℕ) :
    ∀ N t, t < N → ((inference_loop gen L R N).trace)[t]?
      = some ((inference_loop gen L R t).model_input, label_window L R t) := by
  intro N t ht
  have h3 : ((inference_loop gen L R N).trace)[t]?
      = ((inference_loop gen L R N).trace.take (t + 1))[t]? := by
    rw [List.getElem?_take, if_pos (by omega)]
  rw [h3, trace_take gen L R N (t + 1) (by omega)]
  have h4 : (inference_loop gen L R t).trace.length = t := trace_length gen L R t
  show ((inference_loop gen L R t).trace
      ++ [((inference_loop gen L R t).model_input, label_window L R t)])[t]?
    = _
  rw [List.getElem?_append_right (by omega), h4]
  simp

/-- The label slice of step `t` in the uniform spec form: since `Nat`
subtraction truncates, `t + 1 - R` is exactly `max 0 (t + 1 - R)`. -/
lemma label_window_eq (L : List ℚ) (R t : ℕ) :
    label_window L R t = (L.take (t + 1)).drop (t + 1 - R) := by
  unfold label_window
  by_cases h : t < R
  · rw [if_pos h, show t + 1 - R = 0 by omega]
  · rw [if_neg h]

/-- C5: on a label sequence of length `N` with receptive field `R ≥ 1`, the
output has exactly length `N`; at each step `t` the generator is fed the
label slice `[max (0, t+1-R), t+1)` of the label sequence together with an
input window whose length always equals the label window's length
`min (t+1) R` (stable shape); while `t < R` the input window is start-padded
with a zero row in front of the previously generated outputs, and for every
step past index `R - 1` it is the strict trailing slice
`output[t-R : t]` of the previously generated outputs, of full length `R`,
containing no padding. -/
theorem inference_windows (gen : List ℚ → List ℚ → ℚ) (L : List ℚ) (R : ℕ)
    (hR : 1 ≤ R) :
    (inference gen L R).length = L.length ∧
    ∀ t, t < L.length →
      ((inference_loop gen L R L.length).trace)[t]?
          = some ((inference_loop gen L R t).model_input, label_window L R t) ∧
      label_window L R t = (L.take (t + 1)).drop (t + 1 - R) ∧
      (inference_loop gen L R t).model_input.length = min (t + 1) R ∧
      (label_window L R t).length = min (t + 1) R ∧
      (t < R → (inference_loop gen L R t).model_input
          = 0 :: (inference gen L R).take t) ∧
      (R ≤ t → (inference_loop gen L R t).model_input
          = ((inference gen L R).take t).drop (t - R) ∧
        (inference_loop gen L R t).model_input.length = R) := by
  constructor
  · exact output_length gen L R L.length
  · intro t ht
    have hmi := model_input_eq gen L R hR t
    have hout : (inference_loop gen L R t).output = (inference gen L R).take t :=
      (output_take gen L R L.length t (by omega)).symm
    have holen : (inference_loop gen L R t).output.length = t :=
      output_length gen L R t
    refine ⟨trace_get gen L R L.length t ht, label_window_eq L R t, ?_, ?_, ?_, ?_⟩
    · by_cases h : t < R
      · rw [hmi, if_pos h, List.length_cons, holen]
        omega
      · rw [hmi, if_neg h, List.length_drop, holen]
        omega
    · rw [label_window_eq, List.length_drop, List.length_take]
      omega
    · intro h
      rw [hmi, if_pos h, hout]
    · intro h
      refine ⟨?_, ?_⟩
      · rw [hmi, if_neg (by omega), hout]
      · rw [hmi, if_neg (by omega), List.length_drop, holen]
        omega

/-- Witness for C5 on the 3-step run with labels `[5, 7, 9]`, receptive
field 2 and the constant generator. -/
theorem inference_windows_witness :
    1 ≤ 2 ∧
    ((inference (fun _ _ => (1 : ℚ)) [5, 7, 9] 2).length
        = ([5, 7, 9] : List ℚ).length ∧
      ∀ t, t < ([5, 7, 9] : List ℚ).length →
        ((inference_loop (fun _ _ => (1 : ℚ)) [5, 7, 9] 2
            ([5, 7, 9] : List ℚ).length).trace)[t]?
            = some ((inference_loop (fun _ _ => (1 : ℚ)) [5, 7, 9] 2 t).model_input,
                label_window [5, 7, 9] 2 t) ∧
        label_window [5, 7, 9] 2 t
            = (([5, 7, 9] : List ℚ).take (t + 1)).drop (t + 1 - 2) ∧
        (inference_loop (fun _ _ => (1 : ℚ)) [5, 7, 9] 2 t).model_input.length
            = min (t + 1) 2 ∧
        (label_window [5, 7, 9] 2 t).length = min (t + 1) 2 ∧
        (t < 2 → (inference_loop (fun _ _ => (1 : ℚ)) [5, 7, 9] 2 t).model_input
            = 0 :: (inference (fun _ _ => (1 : ℚ)) [5, 7, 9] 2).take t) ∧
        (2 ≤ t → (inference_loop (fun _ _ => (1 : ℚ)) [5, 7, 9] 2 t).model_input
            = ((inference (fun _ _ => (1 : ℚ)) [5, 7, 9] 2).take t).drop (t - 2) ∧
          (inference_loop (fun _ _ => (1 : ℚ)) [5, 7, 9] 2 t).model_input.length
            = 2)) :=
  ⟨by norm_num, inference_windows (fun _ _ => (1 : ℚ)) [5, 7, 9] 2 (by norm_num)⟩

/-- One iteration of the generation loop when a GUI collaborator is
attached (model.py lines 352-356): after the step's computation, the
cancellation flag `kill i` is checked; when set, the whole run returns
`None` immediately; otherwise the per-step progress write occurs (recorded
here as the step index — the written percentage is a pure function of the
index and the sequence length and feeds nothing back into the loop) and
the run continues. -/
def gui_step (gen : List ℚ → List ℚ → ℚ) (label_data : List ℚ) (R : ℕ)
    (kill : ℕ → Bool) (n : ℕ) (s : Option (InfState × List ℕ)) :
    Option (InfState × List ℕ) :=
  match s with
  | none => none
  | some (st, prog) =>
    let st2 := inference_step gen label_data R n st
    if kill n then none
    else some (st2, prog ++ [n])

/-- The loop state after `n` steps of a run with the GUI collaborator
attached: `none` once the cancellation flag was seen set at some step. -/
def inference_gui_loop (gen : List ℚ → List ℚ → ℚ) (label_data : List ℚ)
    (R : ℕ) (kill : ℕ → Bool) : ℕ → Option (InfState × List ℕ)
  | 0 => some (init_state, [])
  | n + 1 => gui_step gen label_data R kill n
      (inference_gui_loop gen label_data R kill n)

/-- Result of `inference` with the GUI collaborator attached: `None` on a
cancelled run (model.py line 354), otherwise the output sequence together
with the record of per-step progress writes. -/
def inference_gui (gen : List ℚ → List ℚ → ℚ) (label_data : List ℚ)
    (R : ℕ) (kill : ℕ → Bool) : Option (List ℚ × List ℕ) :=
  match inference_gui_loop gen label_data R kill label_data.length with
  | none => none
  | some (st, prog) => some (st.output, prog)

/-- A run that never sees the cancellation flag set reaches exactly the
collaborator-absent loop state, with one progress write per step. -/
lemma inference_gui_loop_no_kill (gen : List ℚ → List ℚ → ℚ) (L : List ℚ)
    (R : ℕ) (kill : ℕ → Bool) : ∀ n, (∀ i, i < n → kill i = false) →
    inference_gui_loop gen L R kill n
      = some (inference_loop gen L R n, List.range n) := by
  intro n
  induction n with
  | zero => intro h; rfl
  | succ n ih =>
    intro h
    show gui_step gen L R kill n (inference_gui_loop gen L R kill n) = _
    rw [ih (fun i hi => h i (by omega))]
    show (if kill n then none
        else some (inference_step gen L R n (inference_loop gen L R n),
          List.range n ++ [n])) = _
    rw [h n (by omega), List.range_succ]
    rfl

/-- If a run with the GUI collaborator attached completes (returns a state),
then the cancellation flag was never set at any executed step. -/
lemma inference_gui_loop_some (gen : List ℚ → List ℚ → ℚ) (L : List ℚ)
    (R : ℕ) (kill : ℕ → Bool) : ∀ n p,
    inference_gui_loop gen L R kill n = some p → ∀ i, i < n → kill i = false := by
  intro n
  induction n with
  | zero =>
    intro p h i hi
    omega
  | succ n ih =>
    intro p h i hi
    have hstep : gui_step gen L R kill n (inference_gui_loop gen L R kill n)
        = some p := h
    cases hn : inference_gui_loop gen L R kill n with
    | none =>
      rw [hn] at hstep
      exact absurd hstep (by simp [gui_step])
    | some q =>
      rcases Nat.lt_succ_iff_lt_or_eq.mp hi with hlt | heq
      · exact ih q hn i hlt
      · subst heq
        cases hki : kill i with
        | false => rfl
        | true =>
          rw [hn] at hstep
          obtain ⟨st, prog⟩ := q
          rw [show gui_step gen L R kill i (some (st, prog))
              = if kill i then none
                else some (inference_step gen L R i st, prog ++ [i]) from rfl,
            hki] at hstep
          exact absurd hstep (by simp)

/-- C7: if the cancellation signal is set at some step of the run (checked
between steps), `inference` with the GUI collaborator attached returns the
distinguished no-result value `none` — never any output array, in
particular never a full-length one — so cancellation is distinguishable
from any completed result. -/
theorem inference_cancelled_none (gen : List ℚ → List ℚ → ℚ) (L : List ℚ)
    (R : ℕ) (kill : ℕ → Bool) (h : ∃ i, i < L.length ∧ kill i = true) :
    inference_gui gen L R kill = none ∧
    ∀ out prog, inference_gui gen L R kill ≠ some (out, prog) := by
  obtain ⟨i, hi, hki⟩ := h
  have hnone : inference_gui_loop gen L R kill L.length = none := by
    cases hcase : inference_gui_loop gen L R kill L.length with
    | none => rfl
    | some p =>
      have hfalse := inference_gui_loop_some gen L R kill L.length p hcase i hi
      rw [hki] at hfalse
      exact absurd hfalse (by simp)
  have hmain : inference_gui gen L R kill = none := by
    unfold inference_gui
    rw [hnone]
  exact ⟨hmain, fun out prog hsome => by rw [hmain] at hsome; exact absurd hsome (by simp)⟩

/-- Witness for C7: a 3-step sequence cancelled at step 1 yields `none`. -/
theorem inference_cancelled_none_witness :
    (∃ i, i < ([1, 2, 3] : List ℚ).length ∧ (fun j => j == 1) i = true) ∧
    (inference_gui (fun _ _ => 0) [1, 2, 3] 2 (fun j => j == 1) = none ∧
      ∀ out prog,
        inference_gui (fun _ _ => 0) [1, 2, 3] 2 (fun j => j == 1)
          ≠ some (out, prog)) :=
  ⟨⟨1, by norm_num, rfl⟩,
    inference_cancelled_none (fun _ _ => 0) [1, 2, 3] 2 (fun j => j == 1)
      ⟨1, by norm_num, rfl⟩⟩

/-- C9: a run with the progress/GUI collaborator attached in which the
cancellation flag is never set returns exactly the output sequence of the
collaborator-absent run (same generator, hence same draws), together with
one fire-and-forget progress write per step: the progress writes never
affect the control flow of the loop or the generated values, and the
collaborator-absent run is the same computation with the writes absent. -/
theorem inference_gui_transparent (gen : List ℚ → List ℚ → ℚ) (L : List ℚ)
    (R : ℕ) (kill : ℕ → Bool) (hk : ∀ i, i < L.length → kill i = false) :
    inference_gui gen L R kill
      = some (inference gen L R, List.range L.length) := by
  unfold inference_gui
  rw [inference_gui_loop_no_kill gen L R kill L.length hk]
  rfl

/-- Witness for C9: a 3-step run with the collaborator attached and no
cancellation produces the collaborator-absent output with writes at steps
0, 1, 2. -/
theorem inference_gui_transparent_witness :
    (∀ i, i < ([2, 4, 6] : List ℚ).length → (fun _ : ℕ => false) i = false) ∧
    inference_gui (fun _ _ => 1) [2, 4, 6] 2 (fun _ => false)
      = some (inference (fun _ _ => 1) [2, 4, 6] 2,
          List.range ([2, 4, 6] : List ℚ).length) :=
  ⟨fun i _ => rfl,
    inference_gui_transparent (fun _ _ => 1) [2, 4, 6] 2 (fun _ => false)
      (fun i _ => rfl)⟩
